import Mathlib

/-!
# Verification of the juststrokes handwriting matcher core

Shallow embedding of `src/lib.rs` (crate `juststrokes`): geometry primitives,
bounding-box normalization, arc-length resampling, feature encoding, the
similarity scorer and the top-K matcher.  `f64` values are embedded as elements
of a linear ordered field (instantiated at `ℚ` for computation and at `ℝ` where
the source uses `sqrt`/`atan2`).  Rust panics (explicit `panic` calls and
implicit index-out-of-bounds) are embedded as `Option.none`.
-/

section Defs

variable {K : Type*} [LinearOrderedField K] [FloorRing K]

/-- 2D point in canvas coordinate space (source: `type Point = [f64; 2]`). -/
abbrev Pt (K : Type*) := K × K

/-- Sequence of points forming a single stroke (source: `type Stroke = Vec<Point>`). -/
abbrev Strk (K : Type*) := List (Pt K)

/-- Axis-aligned bounding box `[min_corner, max_corner]` (source: `type AABB = [Point; 2]`). -/
abbrev Aabb (K : Type*) := Pt K × Pt K

/-- Preprocessed stroke data, 10 values (source: `type StrokeProcessed = Vec<f64>`). -/
abbrev StrokeProcessed (K : Type*) := List K

/-- Character identifier (source: `type Ideograph = String`). -/
abbrev Ideograph := String

/-- Source constant `NUM_POSSIBLE_ENCODED_VALUE = 256`. -/
def numPossibleEncodedValue : ℕ := 256

/-- Source constant `NUM_ENCODED_POINTS = 4`. -/
def numEncodedPoints : ℕ := 4

/-- Rust `f64::round`: round to nearest integer, ties away from zero. -/
def fpRound (x : K) : ℤ :=
  if 0 ≤ x then ⌊x + 1 / 2⌋ else -⌊-x + 1 / 2⌋

namespace VectorFunctions

/-- Source `VectorFunctions::subtract`: componentwise `p0 - p1`. -/
def subtract (p0 p1 : Pt K) : Pt K := (p0.1 - p1.1, p0.2 - p1.2)

/-- Source `VectorFunctions::norm2`: squared magnitude. -/
def norm2 (p : Pt K) : K := p.1 * p.1 + p.2 * p.2

/-- Source `VectorFunctions::distance2`: squared Euclidean distance. -/
def distance2 (p0 p1 : Pt K) : K := norm2 (subtract p0 p1)

/-- Source `VectorFunctions::round`: round both coordinates (`f64::round`). -/
def round (p : Pt K) : Pt K := ((fpRound p.1 : K), (fpRound p.2 : K))

end VectorFunctions

/-- Source `get_aabb`: componentwise min/max over all points of all strokes.
The source folds starting from `[+inf, +inf], [-inf, -inf]`; with no points that
infinite box survives and `normalize_aabb` then aborts, which we embed as `none`. -/
def getAabb (strokes : List (Strk K)) : Option (Aabb K) :=
  match strokes.flatten with
  | [] => none
  | p :: rest =>
    some (rest.foldl
      (fun acc q =>
        ((min acc.1.1 q.1, min acc.1.2 q.2), (max acc.2.1 q.1, max acc.2.2 q.2)))
      (p, p))

/-- First block of `normalize_aabb`: expand each axis whose extent (computed once,
from the rounded input box) is below `min_width` by `ceil((min_width - e)/2)` on
each side.  Both conditions test the extents of the input box, as in the source. -/
def minWidthPass (aabb : Aabb K) (min_width : K) : Aabb K :=
  let e := VectorFunctions.subtract aabb.2 aabb.1
  let a1 :=
    if e.1 < min_width then
      let i : K := (⌈(min_width - e.1) / 2⌉ : ℤ)
      ((aabb.1.1 - i, aabb.1.2), (aabb.2.1 + i, aabb.2.2))
    else aabb
  if e.2 < min_width then
    let i : K := (⌈(min_width - e.2) / 2⌉ : ℤ)
    ((a1.1.1, a1.1.2 - i), (a1.2.1, a1.2.2 + i))
  else a1

/-- Second block of `normalize_aabb`: aspect-ratio constraint, applied only when
`max_ratio > 0`, widening at most one axis (else-if in the source). -/
def ratioPass (aabb : Aabb K) (max_ratio : K) : Aabb K :=
  if 0 < max_ratio then
    let e := VectorFunctions.subtract aabb.2 aabb.1
    if e.1 < e.2 / max_ratio then
      let i : K := (⌈(e.2 / max_ratio - e.1) / 2⌉ : ℤ)
      ((aabb.1.1 - i, aabb.1.2), (aabb.2.1 + i, aabb.2.2))
    else if e.2 < e.1 / max_ratio then
      let i : K := (⌈(e.1 / max_ratio - e.2) / 2⌉ : ℤ)
      ((aabb.1.1, aabb.1.2 - i), (aabb.2.1, aabb.2.2 + i))
    else aabb
  else aabb

/-- Source `normalize_aabb`: round corners, abort (`none`) on a negative extent,
then apply the minimum-width pass and the aspect-ratio pass. -/
def normalizeAabb (aabb : Aabb K) (max_ratio min_width : K) : Option (Aabb K) :=
  let a : Aabb K := (VectorFunctions.round aabb.1, VectorFunctions.round aabb.2)
  let e := VectorFunctions.subtract a.2 a.1
  if e.1 < 0 ∨ e.2 < 0 then none
  else some (ratioPass (minWidthPass a min_width) max_ratio)

/-- Source `create_normalized_project_function`: affine map from `aabb0` to
`aabb1` with rounding.  (Division by a zero source extent gives 0 here where
`f64` gives a non-finite value; every claim below stays on inputs where this
cannot change an observable outcome.) -/
def createNormalizedProject (aabb0 aabb1 : Aabb K) : Pt K → Pt K :=
  let diff0 := VectorFunctions.subtract aabb0.2 aabb0.1
  let diff1 := VectorFunctions.subtract aabb1.2 aabb1.1
  let diffratio : Pt K := (diff1.1 / diff0.1, diff1.2 / diff0.2)
  fun point =>
    ((fpRound (diffratio.1 * (point.1 - aabb0.1.1) + aabb1.1.1) : K),
     (fpRound (diffratio.2 * (point.2 - aabb0.1.2) + aabb1.1.2) : K))

/-- Per-stroke contribution of `score_similarity`'s loop body: the (negative)
sum of the coordinate penalties and the length-weighted circular angle penalty. -/
def strokeScore (input_stroke ref_stroke : StrokeProcessed K) : K :=
  let coordPenalty : K :=
    ∑ s ∈ Finset.range numEncodedPoints,
      (|input_stroke.getD (2 * s) 0 - ref_stroke.getD (2 * s) 0| +
       |input_stroke.getD (2 * s + 1) 0 - ref_stroke.getD (2 * s + 1) 0|)
  let angleIdx := 2 * numEncodedPoints
  let c : K := |input_stroke.getD angleIdx 0 - ref_stroke.getD angleIdx 0|
  let angleSimilarity : K := min c ((numPossibleEncodedValue : K) - c)
  let lengthIdx := angleIdx + 1
  let lengthy : K :=
    (input_stroke.getD lengthIdx 0 + ref_stroke.getD lengthIdx 0) /
      (numPossibleEncodedValue : K) ;
  -coordPenalty - 4 * (numEncodedPoints : K) * lengthy * angleSimilarity

/-- Source `score_similarity`: sum of the per-stroke contributions, indexing
both sequences by position (`MAGIC_PER_STROKE_WEIGHT = 4.0`). -/
def score_similarity (input reference : List (StrokeProcessed K)) : K :=
  ∑ i ∈ Finset.range input.length, strokeScore (input.getD i []) (reference.getD i [])

/-- Feature-code sanity bounds guaranteed by the encoder for positions 8 and 9
of a feature vector: angle code in `[0, 256)`, length code nonnegative. -/
def codeOK (v : StrokeProcessed K) : Prop :=
  0 ≤ v.getD 8 0 ∧ v.getD 8 0 < 256 ∧ 0 ≤ v.getD 9 0

/-- A well-formed database: every entry has at least one feature vector, and
every feature vector has exactly 10 values with in-range angle and length codes
(the loader contract of the spec, guaranteed by the encoder). -/
def wellFormedDB (db : List (Ideograph × List (StrokeProcessed K))) : Prop :=
  ∀ e ∈ db, e.2 ≠ [] ∧ ∀ v ∈ e.2, v.length = 10 ∧ codeOK v

/-- Matcher configuration (source `MatcherOptions`). -/
structure MatcherOptions (K : Type*) where
  max_ratio : K
  min_width : K

/-- Source `MatcherOptions::default()`: `max_ratio = 1.0`, `min_width = 8.0`. -/
def MatcherOptions.default : MatcherOptions K := ⟨1, 8⟩

/-- Source `Matcher`: configuration plus the immutable character database. -/
structure Matcher (K : Type*) where
  params : MatcherOptions K
  medians : List (Ideograph × List (StrokeProcessed K))

/-- The source's insertion-position loop:
`let mut f = scores.len(); while f > 0 && score > scores[f-1] { f -= 1 }`,
as a recursion on `f`. -/
def findInsertPos (score : K) (scores : List K) : ℕ → ℕ
  | 0 => 0
  | f + 1 => if score > scores.getD f 0 then findInsertPos score scores f else f + 1

/-- Final value of `f` in the source's insertion loop, started at `scores.len()`. -/
def insertPos (score : K) (scores : List K) : ℕ :=
  findInsertPos score scores scores.length

/-- One iteration of the matcher's database scan (shared body of
`match_strokes` and `match_preprocessed`): filter by stroke count, score,
sorted-insert, cap at `k` by popping the tail. -/
def matchStep (k : ℕ) (query : List (StrokeProcessed K))
    (st : List Ideograph × List K) (cand : Ideograph × List (StrokeProcessed K)) :
    List Ideograph × List K :=
  if cand.2.length = query.length then
    let score := score_similarity query cand.2
    let f := insertPos score st.2
    if k > f then
      let candidates := st.1.insertIdx f cand.1
      let scores := st.2.insertIdx f score
      if candidates.length > k then (candidates.dropLast, scores.dropLast)
      else (candidates, scores)
    else st
  else st

/-- The matcher's full scan over the database, returning the candidate list
together with the internal parallel score list. -/
def matchScan (m : Matcher K) (query : List (StrokeProcessed K)) (k : ℕ) :
    List Ideograph × List K :=
  m.medians.foldl (matchStep k query) ([], [])

/-- Source `Matcher::match_preprocessed`: empty query short-circuits to `[]`,
otherwise scan the database and return the candidate identifiers. -/
def match_preprocessed (m : Matcher K) (strokes_processed : List (StrokeProcessed K))
    (how_many_candidates : ℕ) : List Ideograph :=
  if strokes_processed.isEmpty then []
  else (matchScan m strokes_processed how_many_candidates).1

end Defs

section RealDefs

/-- The source's inline `VectorFunctions::distance2(p, q).sqrt()`: Euclidean
segment length. -/
noncomputable def sqrtDist (p q : Pt ℝ) : ℝ :=
  Real.sqrt (VectorFunctions.distance2 p q)

/-- Total arc length of a stroke: the source's
`for i in 0..stroke.len()-1 { stroke_length += distance2(s[i], s[i+1]).sqrt() }`. -/
noncomputable def pathLen : Strk ℝ → ℝ
  | p :: q :: rest => sqrtDist p q + pathLen (q :: rest)
  | _ => 0

/-- The resampler's inner `while s > u` walk.  State is `(h, point_candidate, u)`
as in the source; the implicit Rust panic on `stroke[h + 1]` going out of bounds
is embedded as `none`. -/
noncomputable def walk (stroke : Strk ℝ) (s : ℝ) (h : ℕ) (cand : Pt ℝ) (u : ℝ) :
    Option (ℕ × Pt ℝ × ℝ) :=
  if s > u then
    match hm : stroke.get? (h + 1) with
    | none => none
    | some nxt =>
      let c := sqrtDist cand nxt
      if s > u + c then
        walk stroke s (h + 1) nxt (u + c)
      else
        let f := (s - u) / c
        some (h, ((1 - f) * cand.1 + f * nxt.1, (1 - f) * cand.2 + f * nxt.2), s)
  else some (h, cand, u)
termination_by stroke.length - h
decreasing_by
  have hlt : h + 1 < stroke.length := (List.get?_eq_some.mp hm).1
  omega

/-- The resampler's outer `for i in 0..how_many_points_to_sample - 1` loop,
pushing the rounded interpolation point after each walk. -/
noncomputable def sampleLoop (stroke : Strk ℝ) (total : ℝ) (nm1 : ℕ) :
    ℕ → ℕ → Pt ℝ → ℝ → Option (Strk ℝ)
  | i, h, cand, u =>
    if hi : i < nm1 then
      let s := (i : ℝ) * total / (nm1 : ℝ)
      match walk stroke s h cand u with
      | none => none
      | some (h', cand', u') =>
        (sampleLoop stroke total nm1 (i + 1) h' cand' u').map
          (fun rest => VectorFunctions.round cand' :: rest)
    else some []
termination_by i => nm1 - i
decreasing_by omega

/-- Source `process_stroke`: resample a stroke to `how_many_points_to_sample`
points; the last output point is the original last input point, appended
outside the walk.  The Rust panic on an empty stroke (`stroke[0]` and the
`stroke.len() - 1` underflow) is embedded as `none`. -/
noncomputable def process_stroke (stroke : Strk ℝ) (how_many_points_to_sample : ℕ) :
    Option (Strk ℝ) :=
  match stroke with
  | [] => none
  | p0 :: rest =>
    let stroke_length := pathLen (p0 :: rest)
    (sampleLoop (p0 :: rest) stroke_length (how_many_points_to_sample - 1) 0 0 p0 0).map
      (fun pts => pts ++ [(p0 :: rest).getLast (List.cons_ne_nil p0 rest)])

/-- Remaining path length from the walk state `(h, cand)` to the end of the
stroke: distance from the current interpolation point to vertex `h + 1` plus
the polyline length beyond it (0 when the walk sits at the final vertex).
Specification device for the walk's loop invariant. -/
noncomputable def tailLen (stroke : Strk ℝ) (h : ℕ) (cand : Pt ℝ) : ℝ :=
  match stroke.get? (h + 1) with
  | none => 0
  | some nxt => sqrtDist cand nxt + pathLen (stroke.drop (h + 1))

/-- Rust `f64::atan2(y, x)`, embedded as the argument of the complex number
`x + y*I` (range `(-pi, pi]`, `atan2 0 0 = 0`). -/
noncomputable def atan2 (y x : ℝ) : ℝ := Complex.arg ⟨x, y⟩

/-- Body of the per-stroke closure inside `preprocess_strokes`: project the
stroke's points, resample to `NUM_ENCODED_POINTS`, then flatten and append the
angle and length codes (one 10-value feature vector). The implicit resampler
panic is propagated as `none`. -/
noncomputable def encodeStroke (project : Pt ℝ → Pt ℝ) (stroke : Strk ℝ) :
    Option (StrokeProcessed ℝ) :=
  (process_stroke (stroke.map project) numEncodedPoints).map
    (fun stroke_processed =>
      let side_length : ℝ := (numPossibleEncodedValue : ℝ)
      let stroke_span := VectorFunctions.subtract
        (stroke_processed.getD (stroke_processed.length - 1) (0, 0))
        (stroke_processed.getD 0 (0, 0))
      let stroke_angle := atan2 stroke_span.2 stroke_span.1
      let angle_encoded : ℤ :=
        Int.tmod (fpRound ((stroke_angle + Real.pi) * side_length / (2 * Real.pi))) 256
      let length_encoded : ℤ :=
        fpRound (Real.sqrt (VectorFunctions.norm2 stroke_span / 2))
      (stroke_processed.flatMap (fun p => [p.1, p.2])) ++
        [(angle_encoded : ℝ), (length_encoded : ℝ)])

/-- Source `preprocess_strokes`: the explicit panic on an empty stroke
collection or any empty stroke, the `normalize_aabb` panic, and the implicit
`process_stroke` panics are all embedded as `none`; otherwise one 10-value
feature vector per stroke. -/
noncomputable def preprocess_strokes (strokes : List (Strk ℝ)) (opts : MatcherOptions ℝ) :
    Option (List (StrokeProcessed ℝ)) :=
  if strokes.isEmpty || strokes.any List.isEmpty then none
  else
    match getAabb strokes with
    | none => none
    | some box =>
      match normalizeAabb box opts.max_ratio opts.min_width with
      | none => none
      | some aabb_after =>
        let target : Aabb ℝ := ((0, 0), (255, 255))
        let project := createNormalizedProject aabb_after target
        strokes.mapM (encodeStroke project)

/-- Source `Matcher::match_strokes`: empty query short-circuits to `[]`,
otherwise preprocess (propagating its panics as `none`) and scan the database. -/
noncomputable def match_strokes (m : Matcher ℝ) (strokes : List (Strk ℝ))
    (how_many_candidates : ℕ) : Option (List Ideograph) :=
  if strokes.isEmpty then some []
  else
    (preprocess_strokes strokes m.params).map
      (fun strokes2 => (matchScan m strokes2 how_many_candidates).1)

end RealDefs

section MatcherLemmas

variable {K : Type*} [LinearOrderedField K] [FloorRing K]

lemma findInsertPos_le (score : K) (scores : List K) : ∀ n, findInsertPos score scores n ≤ n := by
  intro n
  induction n with
  | zero => simp [findInsertPos]
  | succ m ih =>
    simp only [findInsertPos]
    split
    · exact ih.trans (Nat.le_succ m)
    · exact le_refl _

lemma insertPos_le (score : K) (scores : List K) : insertPos score scores ≤ scores.length :=
  findInsertPos_le score scores scores.length

lemma findInsertPos_lt_at (score : K) (scores : List K) :
    ∀ n j, findInsertPos score scores n ≤ j → j < n → scores.getD j 0 < score := by
  intro n
  induction n with
  | zero => omega
  | succ m ih =>
    intro j hle hlt
    by_cases hc : score > scores.getD m 0
    · simp only [findInsertPos, if_pos hc] at hle
      rcases Nat.lt_or_ge j m with hj | hj
      · exact ih j hle hj
      · have : j = m := by omega
        subst this; exact hc
    · simp only [findInsertPos, if_neg hc] at hle
      omega

lemma findInsertPos_stop (score : K) (scores : List K) :
    ∀ n, findInsertPos score scores n ≠ 0 →
      score ≤ scores.getD (findInsertPos score scores n - 1) 0 := by
  intro n
  induction n with
  | zero => simp [findInsertPos]
  | succ m ih =>
    intro hne
    by_cases hc : score > scores.getD m 0
    · simp only [findInsertPos, if_pos hc] at hne ⊢
      exact ih hne
    · simp only [findInsertPos, if_neg hc]
      simpa using le_of_not_lt hc

lemma findInsertPos_eq_zero (score : K) (scores : List K)
    (h : ∀ x ∈ scores, x < score) : ∀ n, n ≤ scores.length → findInsertPos score scores n = 0 := by
  intro n
  induction n with
  | zero => simp [findInsertPos]
  | succ m ih =>
    intro hm
    have hmem : scores.getD m 0 ∈ scores := by
      have hlt : m < scores.length := by omega
      rw [List.getD_eq_getElem scores 0 hlt]
      exact List.getElem_mem hlt
    simp only [findInsertPos, if_pos (h _ hmem)]
    exact ih (by omega)

lemma insertPos_before (score : K) (scores : List K) (hsort : List.Sorted (· ≥ ·) scores) :
    ∀ j, j < insertPos score scores → score ≤ scores.getD j 0 := by
  intro j hj
  have hf := insertPos_le score scores
  have hne : insertPos score scores ≠ 0 := by omega
  have hstop := findInsertPos_stop score scores scores.length hne
  have hj1 : j < scores.length := by omega
  have hf1 : insertPos score scores - 1 < scores.length := by omega
  rcases Nat.lt_or_ge j (insertPos score scores - 1) with hlt | hge
  · have := hsort.rel_get_of_lt (a := ⟨j, hj1⟩) (b := ⟨insertPos score scores - 1, hf1⟩) hlt
    calc score ≤ scores.getD (insertPos score scores - 1) 0 := by
          simp only [insertPos]; exact hstop
    _ = scores.get ⟨insertPos score scores - 1, hf1⟩ := by
        rw [List.getD_eq_getElem scores 0 hf1]; simp
    _ ≤ scores.get ⟨j, hj1⟩ := this
    _ = scores.getD j 0 := by rw [List.getD_eq_getElem scores 0 hj1]; simp
  · have : j = insertPos score scores - 1 := by omega
    subst this
    simp only [insertPos]; exact hstop

lemma insertPos_after (score : K) (scores : List K) :
    ∀ j, insertPos score scores ≤ j → j < scores.length → scores.getD j 0 < score :=
  fun j h1 h2 => findInsertPos_lt_at score scores scores.length j h1 h2

lemma sorted_insertIdx (x : K) : ∀ (n : ℕ) (l : List K), n ≤ l.length →
    List.Sorted (· ≥ ·) l →
    (∀ j, j < n → x ≤ l.getD j 0) →
    (∀ j, n ≤ j → j < l.length → l.getD j 0 < x) →
    List.Sorted (· ≥ ·) (l.insertIdx n x) := by
  intro n
  induction n with
  | zero =>
    intro l _ hsort _ hafter
    rw [List.insertIdx_zero, List.sorted_cons]
    refine ⟨fun b hb => ?_, hsort⟩
    obtain ⟨j, hj, rfl⟩ := List.mem_iff_getElem.mp hb
    have := hafter j (Nat.zero_le j) hj
    rw [List.getD_eq_getElem l 0 hj] at this
    exact this.le
  | succ m ih =>
    intro l hlen hsort hbefore hafter
    match l with
    | [] => simp at hlen
    | y :: t =>
      rw [List.insertIdx_succ_cons, List.sorted_cons]
      rw [List.sorted_cons] at hsort
      have hm : m ≤ t.length := by simpa using hlen
      constructor
      · intro b hb
        rcases (List.mem_insertIdx hm).mp hb with rfl | hbt
        · have := hbefore 0 (Nat.succ_pos m)
          simpa using this
        · exact hsort.1 b hbt
      · refine ih t hm hsort.2 (fun j hj => ?_) (fun j hj1 hj2 => ?_)
        · have := hbefore (j + 1) (by omega)
          simpa using this
        · have := hafter (j + 1) (by omega) (by simpa using hj2)
          simpa using this

lemma codeOK_nil : codeOK ([] : List K) := by
  simp [codeOK]

lemma codeOK_getD (l : List (List K)) (i : ℕ) (h : ∀ v ∈ l, codeOK v) :
    codeOK (l.getD i []) := by
  rcases Nat.lt_or_ge i l.length with hi | hi
  · rw [List.getD_eq_getElem l [] hi]
    exact h _ (List.getElem_mem hi)
  · rw [List.getD_eq_default l [] (by simpa using hi)]
    exact codeOK_nil

lemma strokeScore_self (v : List K) : strokeScore v v = 0 := by
  simp [strokeScore]

lemma score_similarity_self (input : List (StrokeProcessed K)) :
    score_similarity input input = 0 := by
  simp [score_similarity, strokeScore_self]

lemma strokeScore_nonpos (a b : List K) (ha : codeOK a) (hb : codeOK b) :
    strokeScore a b ≤ 0 := by
  obtain ⟨ha1, ha2, ha3⟩ := ha
  obtain ⟨hb1, hb2, hb3⟩ := hb
  have hidx : 2 * numEncodedPoints = 8 := by norm_num [numEncodedPoints]
  simp only [strokeScore, hidx]
  have hcoord : (0 : K) ≤
      ∑ s ∈ Finset.range numEncodedPoints,
        (|a.getD (2 * s) 0 - b.getD (2 * s) 0| + |a.getD (2 * s + 1) 0 - b.getD (2 * s + 1) 0|) :=
    Finset.sum_nonneg fun s _ => add_nonneg (abs_nonneg _) (abs_nonneg _)
  have hc0 : (0 : K) ≤ |a.getD 8 0 - b.getD 8 0| := abs_nonneg _
  have h256 : ((numPossibleEncodedValue : ℕ) : K) = 256 := by norm_num [numPossibleEncodedValue]
  have hc1 : |a.getD 8 0 - b.getD 8 0| ≤ (numPossibleEncodedValue : K) := by
    rw [h256, abs_sub_le_iff]
    constructor <;> linarith
  have hmin : (0 : K) ≤ min |a.getD 8 0 - b.getD 8 0|
      ((numPossibleEncodedValue : K) - |a.getD 8 0 - b.getD 8 0|) :=
    le_min hc0 (by linarith)
  have hlengthy : (0 : K) ≤ (a.getD 9 0 + b.getD 9 0) / (numPossibleEncodedValue : K) := by
    apply div_nonneg (by linarith)
    norm_num [numPossibleEncodedValue]
  have hterm : (0 : K) ≤ 4 * (numEncodedPoints : K) *
      ((a.getD 9 0 + b.getD 9 0) / (numPossibleEncodedValue : K)) *
      min |a.getD 8 0 - b.getD 8 0| ((numPossibleEncodedValue : K) - |a.getD 8 0 - b.getD 8 0|) := by
    apply mul_nonneg (mul_nonneg (by norm_num [numEncodedPoints]) hlengthy) hmin
  linarith

lemma score_similarity_nonpos (input reference : List (StrokeProcessed K))
    (hI : ∀ v ∈ input, codeOK v) (hR : ∀ v ∈ reference, codeOK v) :
    score_similarity input reference ≤ 0 := by
  apply Finset.sum_nonpos
  intro i _
  exact strokeScore_nonpos _ _ (codeOK_getD input i hI) (codeOK_getD reference i hR)

lemma matchStep_of_ne (k : ℕ) (q : List (StrokeProcessed K)) (st : List Ideograph × List K)
    (c : Ideograph × List (StrokeProcessed K)) (h : c.2.length ≠ q.length) :
    matchStep k q st c = st := by
  simp [matchStep, if_neg h]

lemma matchStep_inv (k : ℕ) (q : List (StrokeProcessed K)) (st : List Ideograph × List K)
    (c : Ideograph × List (StrokeProcessed K))
    (h1 : st.1.length = st.2.length) (h2 : st.1.length ≤ k)
    (h3 : List.Sorted (· ≥ ·) st.2) :
    (matchStep k q st c).1.length = (matchStep k q st c).2.length ∧
    (matchStep k q st c).1.length ≤ k ∧
    List.Sorted (· ≥ ·) (matchStep k q st c).2 ∧
    (∀ id ∈ (matchStep k q st c).1, id ∈ st.1 ∨ (id = c.1 ∧ c.2.length = q.length)) ∧
    (∀ x ∈ (matchStep k q st c).2,
      x ∈ st.2 ∨ (x = score_similarity q c.2 ∧ c.2.length = q.length)) := by
  by_cases hlen : c.2.length = q.length
  · simp only [matchStep, if_pos hlen]
    set score := score_similarity q c.2 with hscore
    set f := insertPos score st.2 with hf
    have hfle : f ≤ st.2.length := insertPos_le score st.2
    have hfle1 : f ≤ st.1.length := h1 ▸ hfle
    by_cases hk : k > f
    · simp only [if_pos hk]
      set cands := st.1.insertIdx f c.1 with hcands
      set scs := st.2.insertIdx f score with hscs
      have hclen : cands.length = st.1.length + 1 := List.length_insertIdx f st.1 hfle1
      have hslen : scs.length = st.2.length + 1 := List.length_insertIdx f st.2 hfle
      have hsorted : List.Sorted (· ≥ ·) scs :=
        sorted_insertIdx score f st.2 hfle h3
          (fun j hj => insertPos_before score st.2 h3 j hj)
          (fun j hj1 hj2 => insertPos_after score st.2 j hj1 hj2)
      have hmemc : ∀ id ∈ cands, id ∈ st.1 ∨ (id = c.1 ∧ c.2.length = q.length) := by
        intro id hid
        rcases (List.mem_insertIdx hfle1).mp hid with h | h
        · exact Or.inr ⟨h, hlen⟩
        · exact Or.inl h
      have hmems : ∀ x ∈ scs, x ∈ st.2 ∨ (x = score ∧ c.2.length = q.length) := by
        intro x hx
        rcases (List.mem_insertIdx hfle).mp hx with h | h
        · exact Or.inr ⟨h, hlen⟩
        · exact Or.inl h
      by_cases hpop : cands.length > k
      · simp only [if_pos hpop]
        refine ⟨?_, ?_, hsorted.sublist (List.dropLast_sublist scs), ?_, ?_⟩
        · simp [List.length_dropLast, hclen, hslen, h1]
        · simp only [List.length_dropLast, hclen]; omega
        · intro id hid
          exact hmemc id (List.dropLast_sublist cands |>.mem hid)
        · intro x hx
          exact hmems x (List.dropLast_sublist scs |>.mem hx)
      · simp only [if_neg hpop]
        exact ⟨by simp [hclen, hslen, h1], by omega, hsorted, hmemc, hmems⟩
    · simp only [if_neg hk]
      exact ⟨h1, h2, h3, fun id hid => Or.inl hid, fun x hx => Or.inl hx⟩
  · rw [matchStep_of_ne k q st c hlen]
    exact ⟨h1, h2, h3, fun id hid => Or.inl hid, fun x hx => Or.inl hx⟩

lemma foldl_matchStep_inv (k : ℕ) (q : List (StrokeProcessed K))
    (entries : List (Ideograph × List (StrokeProcessed K))) : ∀ st : List Ideograph × List K,
    st.1.length = st.2.length → st.1.length ≤ k → List.Sorted (· ≥ ·) st.2 →
    (entries.foldl (matchStep k q) st).1.length = (entries.foldl (matchStep k q) st).2.length ∧
    (entries.foldl (matchStep k q) st).1.length ≤ k ∧
    List.Sorted (· ≥ ·) (entries.foldl (matchStep k q) st).2 ∧
    (∀ id ∈ (entries.foldl (matchStep k q) st).1,
      id ∈ st.1 ∨ ∃ e ∈ entries, id = e.1 ∧ e.2.length = q.length) ∧
    (∀ x ∈ (entries.foldl (matchStep k q) st).2,
      x ∈ st.2 ∨ ∃ e ∈ entries, x = score_similarity q e.2 ∧ e.2.length = q.length) := by
  induction entries with
  | nil => intro st h1 h2 h3; exact ⟨h1, h2, h3, fun id hid => Or.inl hid, fun x hx => Or.inl hx⟩
  | cons c rest ih =>
    intro st h1 h2 h3
    obtain ⟨s1, s2, s3, s4, s5⟩ := matchStep_inv k q st c h1 h2 h3
    obtain ⟨r1, r2, r3, r4, r5⟩ := ih (matchStep k q st c) s1 s2 s3
    simp only [List.foldl_cons]
    refine ⟨r1, r2, r3, ?_, ?_⟩
    · intro id hid
      rcases r4 id hid with h | ⟨e, he, heq⟩
      · rcases s4 id h with h' | ⟨h', hlen⟩
        · exact Or.inl h'
        · exact Or.inr ⟨c, List.mem_cons_self c rest, h', hlen⟩
      · exact Or.inr ⟨e, List.mem_cons_of_mem c he, heq⟩
    · intro x hx
      rcases r5 x hx with h | ⟨e, he, heq⟩
      · rcases s5 x h with h' | ⟨h', hlen⟩
        · exact Or.inl h'
        · exact Or.inr ⟨c, List.mem_cons_self c rest, h', hlen⟩
      · exact Or.inr ⟨e, List.mem_cons_of_mem c he, heq⟩

lemma matchScan_inv (m : Matcher K) (q : List (StrokeProcessed K)) (k : ℕ) :
    (matchScan m q k).1.length = (matchScan m q k).2.length ∧
    (matchScan m q k).1.length ≤ k ∧
    List.Sorted (· ≥ ·) (matchScan m q k).2 ∧
    (∀ id ∈ (matchScan m q k).1, ∃ e ∈ m.medians, id = e.1 ∧ e.2.length = q.length) ∧
    (∀ x ∈ (matchScan m q k).2,
      ∃ e ∈ m.medians, x = score_similarity q e.2 ∧ e.2.length = q.length) := by
  obtain ⟨h1, h2, h3, h4, h5⟩ := foldl_matchStep_inv k q m.medians ([], [])
    (by simp) (by simp) (by simp)
  refine ⟨h1, h2, h3, ?_, ?_⟩
  · intro id hid
    rcases h4 id hid with h | h
    · simp at h
    · exact h
  · intro x hx
    rcases h5 x hx with h | h
    · simp at h
    · exact h

lemma foldl_matchStep_of_no_match (k : ℕ) (q : List (StrokeProcessed K))
    (entries : List (Ideograph × List (StrokeProcessed K)))
    (h : ∀ e ∈ entries, e.2.length ≠ q.length) (st : List Ideograph × List K) :
    entries.foldl (matchStep k q) st = st := by
  induction entries generalizing st with
  | nil => rfl
  | cons c rest ih =>
    simp only [List.foldl_cons]
    rw [matchStep_of_ne k q st c (h c (List.mem_cons_self c rest))]
    exact ih (fun e he => h e (List.mem_cons_of_mem c he)) st

lemma foldl_matchStep_allneg (k : ℕ) (q : List (StrokeProcessed K))
    (entries : List (Ideograph × List (StrokeProcessed K)))
    (hneg : ∀ e ∈ entries, e.2.length = q.length → score_similarity q e.2 < 0)
    (st : List Ideograph × List K)
    (h1 : st.1.length = st.2.length) (h2 : st.1.length ≤ k)
    (h3 : List.Sorted (· ≥ ·) st.2) (h4 : ∀ x ∈ st.2, x < 0) :
    (entries.foldl (matchStep k q) st).1.length = (entries.foldl (matchStep k q) st).2.length ∧
    (entries.foldl (matchStep k q) st).1.length ≤ k ∧
    List.Sorted (· ≥ ·) (entries.foldl (matchStep k q) st).2 ∧
    (∀ x ∈ (entries.foldl (matchStep k q) st).2, x < 0) := by
  obtain ⟨r1, r2, r3, _, r5⟩ := foldl_matchStep_inv k q entries st h1 h2 h3
  refine ⟨r1, r2, r3, fun x hx => ?_⟩
  rcases r5 x hx with h | ⟨e, he, heq, hlen⟩
  · exact h4 x h
  · exact heq ▸ hneg e he hlen

lemma matchStep_self_k1 (vs : List (StrokeProcessed K)) (id : Ideograph)
    (st : List Ideograph × List K) (h1 : st.1.length = st.2.length) (h2 : st.1.length ≤ 1)
    (hneg : ∀ x ∈ st.2, x < 0) :
    matchStep 1 vs st (id, vs) = ([id], [0]) := by
  have hscore : score_similarity vs vs = (0 : K) := score_similarity_self vs
  obtain ⟨c1, s1⟩ := st
  simp only at h1 h2 hneg
  rcases c1 with _ | ⟨a, c1t⟩
  · have hs1 : s1 = [] := List.length_eq_zero.mp h1.symm
    subst hs1
    simp [matchStep, hscore, insertPos, findInsertPos]
  · have hct : c1t = [] := by
      simp only [List.length_cons] at h2
      exact List.length_eq_zero.mp (by omega)
    subst hct
    obtain ⟨b, rfl⟩ : ∃ b, s1 = [b] := List.length_eq_one.mp (by simpa using h1.symm)
    have hb : (0 : K) > b := hneg b (by simp)
    simp [matchStep, hscore, insertPos, findInsertPos, List.getD, hb]

lemma matchStep_k1_unchanged (vs : List (StrokeProcessed K)) (id : Ideograph)
    (c : Ideograph × List (StrokeProcessed K))
    (hle : c.2.length = vs.length → score_similarity vs c.2 ≤ 0) :
    matchStep 1 vs ([id], [(0 : K)]) c = ([id], [0]) := by
  by_cases hlen : c.2.length = vs.length
  · have hsc : ¬ score_similarity vs c.2 > (0 : K) := not_lt.mpr (hle hlen)
    have hpos : insertPos (score_similarity vs c.2) [(0 : K)] = 1 := by
      simp only [insertPos, findInsertPos, List.length_singleton, List.getD]
      simp [hsc]
    simp only [matchStep, if_pos hlen, hpos]
    norm_num
  · exact matchStep_of_ne 1 vs ([id], [0]) c hlen

lemma foldl_matchStep_k1_unchanged (vs : List (StrokeProcessed K)) (id : Ideograph)
    (entries : List (Ideograph × List (StrokeProcessed K)))
    (hle : ∀ e ∈ entries, e.2.length = vs.length → score_similarity vs e.2 ≤ 0) :
    entries.foldl (matchStep 1 vs) ([id], [(0 : K)]) = ([id], [0]) := by
  induction entries with
  | nil => rfl
  | cons c rest ih =>
    simp only [List.foldl_cons]
    rw [matchStep_k1_unchanged vs id c (hle c (List.mem_cons_self c rest))]
    exact ih (fun e he => hle e (List.mem_cons_of_mem c he))

end MatcherLemmas

/-- C1 is false as stated: in a well-formed database holding two entries with
identical feature vectors, matching the second entry's own vectors with k = 1
returns the first entry's identifier, not the second's (ties keep the
earlier-scanned entry). -/
theorem claimC1_counterexample :
    wellFormedDB [("a", [List.replicate 10 (0 : ℚ)]), ("b", [List.replicate 10 (0 : ℚ)])] ∧
    ("b", [List.replicate 10 (0 : ℚ)]) ∈
      [("a", [List.replicate 10 (0 : ℚ)]), ("b", [List.replicate 10 (0 : ℚ)])] ∧
    (match_preprocessed
        (⟨⟨1, 8⟩, [("a", [List.replicate 10 (0 : ℚ)]), ("b", [List.replicate 10 (0 : ℚ)])]⟩ :
          Matcher ℚ)
        [List.replicate 10 (0 : ℚ)] 1).head? ≠ some "b" := by
  refine ⟨?_, by simp, ?_⟩
  · norm_num [wellFormedDB, List.forall_mem_cons, codeOK, List.getD, List.replicate]
  · norm_num [match_preprocessed, matchScan, matchStep, insertPos, findInsertPos,
      score_similarity, strokeScore, Finset.sum_range_succ, numEncodedPoints,
      numPossibleEncodedValue, List.getD, List.replicate]
    decide

/-- C1 (amended): for an entry (id, vs) of a well-formed database, if every
earlier entry with the same stroke count scores strictly below the self-score 0
against vs, then `match_preprocessed` on vs with k = 1 returns exactly [id].
(The original claim omitted the no-earlier-tie condition; equal-scoring earlier
entries win ties, as the counterexample shows.) -/
theorem claimC1_amended {K : Type*} [LinearOrderedField K] [FloorRing K]
    (opts : MatcherOptions K) (pre post : List (Ideograph × List (StrokeProcessed K)))
    (id : Ideograph) (vs : List (StrokeProcessed K)) (hne : vs ≠ [])
    (hwf : wellFormedDB (pre ++ (id, vs) :: post))
    (hearly : ∀ e ∈ pre, e.2.length = vs.length → score_similarity vs e.2 < 0) :
    match_preprocessed ⟨opts, pre ++ (id, vs) :: post⟩ vs 1 = [id] := by
  have hvsmem : (id, vs) ∈ pre ++ (id, vs) :: post :=
    List.mem_append_right pre (List.mem_cons_self _ post)
  have hvscodes : ∀ v ∈ vs, codeOK v := fun v hv => ((hwf _ hvsmem).2 v hv).2
  have hpostle : ∀ e ∈ post, e.2.length = vs.length → score_similarity vs e.2 ≤ 0 := by
    intro e he _
    apply score_similarity_nonpos vs e.2 hvscodes
    intro v hv
    exact ((hwf e (List.mem_append_right pre (List.mem_cons_of_mem _ he))).2 v hv).2
  obtain ⟨p1, p2, p3, p4⟩ := foldl_matchStep_allneg 1 vs pre hearly ([], [])
    (by simp) (by simp) (by simp) (by simp)
  have hscan : matchScan ⟨opts, pre ++ (id, vs) :: post⟩ vs 1 = ([id], [0]) := by
    unfold matchScan
    simp only [List.foldl_append, List.foldl_cons]
    rw [matchStep_self_k1 vs id _ p1 p2 p4]
    exact foldl_matchStep_k1_unchanged vs id post hpostle
  unfold match_preprocessed
  rw [if_neg (by simpa using hne), hscan]

/-- Witness for C1 (amended): a single-entry database; its own vector ranks
first with k = 1. -/
theorem claimC1_witness :
    match_preprocessed (⟨⟨1, 8⟩, [("a", [List.replicate 10 (0 : ℚ)])]⟩ : Matcher ℚ)
      [List.replicate 10 (0 : ℚ)] 1 = ["a"] := by
  have h := claimC1_amended (K := ℚ) ⟨1, 8⟩ [] [] "a" [List.replicate 10 (0 : ℚ)]
    (by simp)
    (by norm_num [wellFormedDB, List.forall_mem_cons, codeOK, List.getD, List.replicate])
    (by intro e he; simp at he)
  simpa using h

/-- C3: the result list never exceeds k entries; the internal score list is
kept in non-increasing order, parallel to the candidate list; and the insertion
position displaces only strictly-lower scores while every kept-ahead score is
at least the inserted one (stability: first-seen wins ties). -/
theorem claimC3 {K : Type*} [LinearOrderedField K] [FloorRing K] (m : Matcher K)
    (sp : List (StrokeProcessed K)) (k : ℕ) :
    (match_preprocessed m sp k).length ≤ k ∧
    List.Sorted (· ≥ ·) (matchScan m sp k).2 ∧
    (matchScan m sp k).1.length = (matchScan m sp k).2.length ∧
    (∀ (score : K) (scores : List K), List.Sorted (· ≥ ·) scores →
      (∀ j, j < insertPos score scores → score ≤ scores.getD j 0) ∧
      (∀ j, insertPos score scores ≤ j → j < scores.length → scores.getD j 0 < score)) := by
  obtain ⟨h1, h2, h3, _, _⟩ := matchScan_inv m sp k
  refine ⟨?_, h3, h1, ?_⟩
  · unfold match_preprocessed
    split
    · simp
    · exact h2
  · intro score scores hsort
    exact ⟨fun j hj => insertPos_before score scores hsort j hj,
           fun j hj1 hj2 => insertPos_after score scores j hj1 hj2⟩

/-- Witness for C3 at a concrete matcher, query, k and a concrete sorted
score list. -/
theorem claimC3_witness :
    (match_preprocessed (⟨⟨1, 8⟩, [("a", [List.replicate 10 (0 : ℚ)])]⟩ : Matcher ℚ)
        [List.replicate 10 (0 : ℚ)] 1).length ≤ 1 ∧
    (∀ j, j < insertPos (3 : ℚ) [5, 3, 1] → (3 : ℚ) ≤ [(5 : ℚ), 3, 1].getD j 0) ∧
    (∀ j, insertPos (3 : ℚ) [5, 3, 1] ≤ j → j < ([(5 : ℚ), 3, 1]).length →
      ([(5 : ℚ), 3, 1]).getD j 0 < 3) := by
  have h := claimC3 (K := ℚ) ⟨⟨1, 8⟩, [("a", [List.replicate 10 (0 : ℚ)])]⟩
    [List.replicate 10 (0 : ℚ)] 1
  have hs : List.Sorted (· ≥ ·) [(5 : ℚ), 3, 1] := by
    norm_num [List.sorted_cons]
  exact ⟨h.1, (h.2.2.2 3 [5, 3, 1] hs).1, (h.2.2.2 3 [5, 3, 1] hs).2⟩

/-- C8: in the minimum-size pass, each axis of the box whose extent is below
the configured minimum width is expanded symmetrically by
ceil((minWidth - extent)/2) on each side (other axes untouched); concretely,
normalizing [[0,0],[2,2]] with minWidth = 8 and maxRatio = 1 gives
[[-3,-3],[5,5]]. -/
theorem claimC8 {K : Type*} [LinearOrderedField K] [FloorRing K]
    (aabb : Aabb K) (min_width : K) :
    (((VectorFunctions.subtract aabb.2 aabb.1).1 < min_width →
        (minWidthPass aabb min_width).1.1 =
          aabb.1.1 - (⌈(min_width - (VectorFunctions.subtract aabb.2 aabb.1).1) / 2⌉ : ℤ) ∧
        (minWidthPass aabb min_width).2.1 =
          aabb.2.1 + (⌈(min_width - (VectorFunctions.subtract aabb.2 aabb.1).1) / 2⌉ : ℤ)) ∧
      (¬ (VectorFunctions.subtract aabb.2 aabb.1).1 < min_width →
        (minWidthPass aabb min_width).1.1 = aabb.1.1 ∧
        (minWidthPass aabb min_width).2.1 = aabb.2.1) ∧
      ((VectorFunctions.subtract aabb.2 aabb.1).2 < min_width →
        (minWidthPass aabb min_width).1.2 =
          aabb.1.2 - (⌈(min_width - (VectorFunctions.subtract aabb.2 aabb.1).2) / 2⌉ : ℤ) ∧
        (minWidthPass aabb min_width).2.2 =
          aabb.2.2 + (⌈(min_width - (VectorFunctions.subtract aabb.2 aabb.1).2) / 2⌉ : ℤ)) ∧
      (¬ (VectorFunctions.subtract aabb.2 aabb.1).2 < min_width →
        (minWidthPass aabb min_width).1.2 = aabb.1.2 ∧
        (minWidthPass aabb min_width).2.2 = aabb.2.2)) ∧
    normalizeAabb (((0 : ℚ), 0), (2, 2)) 1 8 = some ((-3, -3), (5, 5)) := by
  constructor
  · by_cases h1 : (VectorFunctions.subtract aabb.2 aabb.1).1 < min_width <;>
      by_cases h2 : (VectorFunctions.subtract aabb.2 aabb.1).2 < min_width <;>
      simp [minWidthPass, h1, h2]
  · norm_num [normalizeAabb, minWidthPass, ratioPass, VectorFunctions.round,
      VectorFunctions.subtract, fpRound]

/-- Witness for C8: the x-axis of box [[0,0],[2,2]] with minWidth 8 is below
minimum and gets expanded by ceil((8-2)/2) on each side. -/
theorem claimC8_witness :
    ((VectorFunctions.subtract ((2 : ℚ), 2) ((0 : ℚ), 0)).1 < 8) ∧
    ((minWidthPass (((0 : ℚ), 0), ((2 : ℚ), 2)) 8).1.1 =
      ((0 : ℚ), (0 : ℚ)).1 -
        (⌈((8 : ℚ) - (VectorFunctions.subtract ((2 : ℚ), 2) ((0 : ℚ), 0)).1) / 2⌉ : ℤ)) := by
  have hc : (VectorFunctions.subtract ((2 : ℚ), 2) ((0 : ℚ), 0)).1 < 8 := by
    norm_num [VectorFunctions.subtract]
  exact ⟨hc, ((claimC8 (((0 : ℚ), 0), ((2 : ℚ), 2)) 8).1.1 hc).1⟩

/-- C9 is false as stated: on box [[0,0],[1,2]] with maxRatio = 1 (minWidth 0),
the aspect-ratio pass widens x by ceil((2-1)/2) = 1 per side, giving x-extent
3, which is not equal to ey/maxRatio = 2 (the ceil overshoots). -/
theorem claimC9_counterexample :
    normalizeAabb (((0 : ℚ), 0), (1, 2)) 1 0 = some ((-1, 0), (2, 2)) ∧
    ((2 : ℚ) - -1) ≠ ((2 : ℚ) - 0) / 1 := by
  constructor
  · have hc : ⌈(1 : ℚ) / 2⌉ = 1 := by
      rw [Int.ceil_eq_iff]
      norm_num
    norm_num [normalizeAabb, minWidthPass, ratioPass, VectorFunctions.round,
      VectorFunctions.subtract, fpRound, hc]
  · norm_num

/-- C9 (amended): the aspect-ratio pass runs only when maxRatio > 0; if
ex < ey/maxRatio the x-axis is widened symmetrically by
i = ceil((ey/maxRatio - ex)/2) per side, so the new extent is ex + 2i, which is
at least ey/maxRatio but can overshoot it (not exactly equal, as the
counterexample shows); else if ey < ex/maxRatio the y-axis is widened the same
way; at most one axis is widened, the other axis's corners are unchanged. -/
theorem claimC9_amended {K : Type*} [LinearOrderedField K] [FloorRing K]
    (aabb : Aabb K) (max_ratio : K) :
    (¬ 0 < max_ratio → ratioPass aabb max_ratio = aabb) ∧
    (0 < max_ratio →
      (((VectorFunctions.subtract aabb.2 aabb.1).1 <
          (VectorFunctions.subtract aabb.2 aabb.1).2 / max_ratio →
        ratioPass aabb max_ratio =
          ((aabb.1.1 - (⌈((VectorFunctions.subtract aabb.2 aabb.1).2 / max_ratio -
              (VectorFunctions.subtract aabb.2 aabb.1).1) / 2⌉ : ℤ), aabb.1.2),
           (aabb.2.1 + (⌈((VectorFunctions.subtract aabb.2 aabb.1).2 / max_ratio -
              (VectorFunctions.subtract aabb.2 aabb.1).1) / 2⌉ : ℤ), aabb.2.2)) ∧
        (VectorFunctions.subtract aabb.2 aabb.1).2 / max_ratio ≤
          (ratioPass aabb max_ratio).2.1 - (ratioPass aabb max_ratio).1.1) ∧
      (¬ (VectorFunctions.subtract aabb.2 aabb.1).1 <
          (VectorFunctions.subtract aabb.2 aabb.1).2 / max_ratio →
        (VectorFunctions.subtract aabb.2 aabb.1).2 <
          (VectorFunctions.subtract aabb.2 aabb.1).1 / max_ratio →
        ratioPass aabb max_ratio =
          ((aabb.1.1, aabb.1.2 - (⌈((VectorFunctions.subtract aabb.2 aabb.1).1 / max_ratio -
              (VectorFunctions.subtract aabb.2 aabb.1).2) / 2⌉ : ℤ)),
           (aabb.2.1, aabb.2.2 + (⌈((VectorFunctions.subtract aabb.2 aabb.1).1 / max_ratio -
              (VectorFunctions.subtract aabb.2 aabb.1).2) / 2⌉ : ℤ))) ∧
        (VectorFunctions.subtract aabb.2 aabb.1).1 / max_ratio ≤
          (ratioPass aabb max_ratio).2.2 - (ratioPass aabb max_ratio).1.2) ∧
      (¬ (VectorFunctions.subtract aabb.2 aabb.1).1 <
          (VectorFunctions.subtract aabb.2 aabb.1).2 / max_ratio →
        ¬ (VectorFunctions.subtract aabb.2 aabb.1).2 <
          (VectorFunctions.subtract aabb.2 aabb.1).1 / max_ratio →
        ratioPass aabb max_ratio = aabb))) := by
  constructor
  · intro h0
    simp [ratioPass, h0]
  · intro h0
    refine ⟨fun h1 => ⟨?_, ?_⟩, fun h1 h2 => ⟨?_, ?_⟩, fun h1 h2 => ?_⟩
    · simp [ratioPass, h0, h1]
    · have hcl := Int.le_ceil (((VectorFunctions.subtract aabb.2 aabb.1).2 / max_ratio -
        (VectorFunctions.subtract aabb.2 aabb.1).1) / 2)
      simp only [VectorFunctions.subtract] at hcl h1 ⊢
      simp [ratioPass, VectorFunctions.subtract, h0, h1]
      linarith
    · simp [ratioPass, h0, h1, h2]
    · have hcl := Int.le_ceil (((VectorFunctions.subtract aabb.2 aabb.1).1 / max_ratio -
        (VectorFunctions.subtract aabb.2 aabb.1).2) / 2)
      simp only [VectorFunctions.subtract] at hcl h1 h2 ⊢
      simp [ratioPass, VectorFunctions.subtract, h0, h1, h2]
      linarith
    · simp [ratioPass, h0, h1, h2]

/-- Witness for C9 (amended): box [[0,0],[1,2]] with maxRatio 1 triggers the
x-widening branch and the widened extent is at least ey/maxRatio. -/
theorem claimC9_witness :
    (0 : ℚ) < 1 ∧
    (VectorFunctions.subtract ((1 : ℚ), 2) ((0 : ℚ), 0)).1 <
      (VectorFunctions.subtract ((1 : ℚ), 2) ((0 : ℚ), 0)).2 / 1 ∧
    (VectorFunctions.subtract ((1 : ℚ), 2) ((0 : ℚ), 0)).2 / 1 ≤
      (ratioPass (((0 : ℚ), 0), (1, 2)) 1).2.1 - (ratioPass (((0 : ℚ), 0), (1, 2)) 1).1.1 := by
  have h0 : (0 : ℚ) < 1 := by norm_num
  have hc : (VectorFunctions.subtract ((1 : ℚ), 2) ((0 : ℚ), 0)).1 <
      (VectorFunctions.subtract ((1 : ℚ), 2) ((0 : ℚ), 0)).2 / 1 := by
    norm_num [VectorFunctions.subtract]
  exact ⟨h0, hc, (((claimC9_amended (((0 : ℚ), 0), (1, 2)) 1).2 h0).1 hc).2⟩

/-- C5: an empty query returns an empty list from both match entry points,
for every matcher and every k, via the early return (no entry is scanned, so
the scorer is never invoked, even on zero-stroke-count database entries). -/
theorem claimC5 {K : Type*} [LinearOrderedField K] [FloorRing K] (m : Matcher K) (k : ℕ)
    (mr : Matcher ℝ) (kr : ℕ) :
    match_preprocessed m [] k = [] ∧ match_strokes mr [] kr = some [] := by
  constructor
  · simp [match_preprocessed]
  · simp [match_strokes]

/-- C6: in the scorer, the angle penalty for angle codes a, b (coordinates and
length codes held equal) is the circular distance min(|a-b|, 256-|a-b|), scaled
by the length weight; in particular codes 0 and 255 with length 128 give
penalty 4*4*1*1 = 16, i.e. angle distance 1, not 255. -/
theorem claimC6 {K : Type*} [LinearOrderedField K] [FloorRing K]
    (a b l c0 c1 c2 c3 c4 c5 c6 c7 : K) :
    score_similarity [[c0, c1, c2, c3, c4, c5, c6, c7, a, l]]
        [[c0, c1, c2, c3, c4, c5, c6, c7, b, l]] =
      -(4 * 4 * ((l + l) / 256) * min |a - b| (256 - |a - b|)) ∧
    score_similarity [[(0 : K), 0, 0, 0, 0, 0, 0, 0, 0, 128]]
        [[(0 : K), 0, 0, 0, 0, 0, 0, 0, 255, 128]] = -16 := by
  constructor
  · norm_num [score_similarity, strokeScore, Finset.sum_range_succ, numEncodedPoints,
      numPossibleEncodedValue, List.getD]
  · norm_num [score_similarity, strokeScore, Finset.sum_range_succ, numEncodedPoints,
      numPossibleEncodedValue, List.getD]

section ResamplerLemmas

lemma sqrtDist_nonneg (p q : Pt ℝ) : 0 ≤ sqrtDist p q :=
  Real.sqrt_nonneg _

lemma sqrtDist_self (p : Pt ℝ) : sqrtDist p p = 0 := by
  simp [sqrtDist, VectorFunctions.distance2, VectorFunctions.norm2, VectorFunctions.subtract]

lemma pathLen_nonneg : ∀ l : Strk ℝ, 0 ≤ pathLen l := by
  intro l
  induction l with
  | nil => simp [pathLen]
  | cons p rest ih =>
    cases rest with
    | nil => simp [pathLen]
    | cons q t =>
      rw [show pathLen (p :: q :: t) = sqrtDist p q + pathLen (q :: t) by rw [pathLen]]
      exact add_nonneg (sqrtDist_nonneg p q) ih

lemma tailLen_some (stroke : Strk ℝ) (h : ℕ) (nxt : Pt ℝ)
    (hm : stroke.get? (h + 1) = some nxt) (cand : Pt ℝ) :
    tailLen stroke h cand = sqrtDist cand nxt + pathLen (stroke.drop (h + 1)) := by
  unfold tailLen; rw [hm]

lemma tailLen_eq (stroke : Strk ℝ) (h : ℕ) (p : Pt ℝ) (hp : stroke.get? h = some p) :
    tailLen stroke h p = pathLen (stroke.drop h) := by
  obtain ⟨hh, hget⟩ := List.get?_eq_some.mp hp
  have hdrop : stroke.drop h = p :: stroke.drop (h + 1) := by
    rw [List.drop_eq_getElem_cons hh]
    simp [← hget]
  unfold tailLen
  cases hq : stroke.get? (h + 1) with
  | none =>
    have hlen : stroke.length ≤ h + 1 := List.get?_eq_none.mp hq
    have hdrop1 : stroke.drop (h + 1) = [] := List.drop_eq_nil_of_le hlen
    rw [hdrop, hdrop1]
    simp [pathLen]
  | some q =>
    obtain ⟨hh1, hget1⟩ := List.get?_eq_some.mp hq
    have hdrop1 : stroke.drop (h + 1) = q :: stroke.drop (h + 2) := by
      rw [List.drop_eq_getElem_cons hh1]
      simp [← hget1]
    rw [hdrop, hdrop1, show pathLen (p :: q :: stroke.drop (h + 2)) =
      sqrtDist p q + pathLen (q :: stroke.drop (h + 2)) by rw [pathLen]]

lemma sqrtDist_interp (cand nxt : Pt ℝ) (f : ℝ) (hf : f ≤ 1) :
    sqrtDist ((1 - f) * cand.1 + f * nxt.1, (1 - f) * cand.2 + f * nxt.2) nxt =
      (1 - f) * sqrtDist cand nxt := by
  unfold sqrtDist VectorFunctions.distance2 VectorFunctions.norm2 VectorFunctions.subtract
  have harg : ((1 - f) * cand.1 + f * nxt.1 - nxt.1, (1 - f) * cand.2 + f * nxt.2 - nxt.2).1 *
        ((1 - f) * cand.1 + f * nxt.1 - nxt.1, (1 - f) * cand.2 + f * nxt.2 - nxt.2).1 +
      ((1 - f) * cand.1 + f * nxt.1 - nxt.1, (1 - f) * cand.2 + f * nxt.2 - nxt.2).2 *
        ((1 - f) * cand.1 + f * nxt.1 - nxt.1, (1 - f) * cand.2 + f * nxt.2 - nxt.2).2 =
      (1 - f) ^ 2 * ((cand.1 - nxt.1, cand.2 - nxt.2).1 * (cand.1 - nxt.1, cand.2 - nxt.2).1 +
        (cand.1 - nxt.1, cand.2 - nxt.2).2 * (cand.1 - nxt.1, cand.2 - nxt.2).2) := by
    simp only
    ring
  rw [harg, Real.sqrt_mul (sq_nonneg _), Real.sqrt_sq (by linarith)]

lemma walk_spec (stroke : Strk ℝ) (s : ℝ) (hs : s ≤ pathLen stroke) :
    ∀ (n h : ℕ) (cand : Pt ℝ) (u : ℝ), stroke.length - h ≤ n → h < stroke.length →
      u + tailLen stroke h cand = pathLen stroke →
      ∃ h' cand' u', walk stroke s h cand u = some (h', cand', u') ∧
        h' < stroke.length ∧ u' + tailLen stroke h' cand' = pathLen stroke := by
  intro n
  induction n with
  | zero => intro h cand u hn hh _; omega
  | succ m ih =>
    intro h cand u hn hh hinv
    by_cases hsu : s > u
    · cases hm : stroke.get? (h + 1) with
      | none =>
        exfalso
        have htail : tailLen stroke h cand = 0 := by unfold tailLen; rw [hm]
        rw [htail, add_zero] at hinv
        linarith
      | some nxt =>
        have htail : tailLen stroke h cand =
            sqrtDist cand nxt + pathLen (stroke.drop (h + 1)) := by
          unfold tailLen; rw [hm]
        have hh1 : h + 1 < stroke.length := (List.get?_eq_some.mp hm).1
        have htail1 : tailLen stroke (h + 1) nxt = pathLen (stroke.drop (h + 1)) :=
          tailLen_eq stroke (h + 1) nxt hm
        by_cases hsc : s > u + sqrtDist cand nxt
        · have hrec : walk stroke s h cand u = walk stroke s (h + 1) nxt (u + sqrtDist cand nxt) := by
            rw [walk]
            rw [if_pos hsu, hm]
            simp only [if_pos hsc]
          obtain ⟨h', cand', u', hw, hh', hinv'⟩ := ih (h + 1) nxt (u + sqrtDist cand nxt)
            (by omega) hh1 (by rw [htail] at hinv; rw [htail1]; linarith)
          exact ⟨h', cand', u', hrec ▸ hw, hh', hinv'⟩
        · have hc : 0 < sqrtDist cand nxt := by
            rcases lt_or_eq_of_le (sqrtDist_nonneg cand nxt) with h0 | h0
            · exact h0
            · exfalso; rw [← h0] at hsc; push_neg at hsc; linarith
          have hres : walk stroke s h cand u = some (h,
              ((1 - (s - u) / sqrtDist cand nxt) * cand.1 + (s - u) / sqrtDist cand nxt * nxt.1,
               (1 - (s - u) / sqrtDist cand nxt) * cand.2 + (s - u) / sqrtDist cand nxt * nxt.2),
              s) := by
            rw [walk]
            rw [if_pos hsu, hm]
            simp only [if_neg hsc]
          have hf1 : (s - u) / sqrtDist cand nxt ≤ 1 := by
            rw [div_le_one hc]
            push_neg at hsc
            linarith
          refine ⟨h, _, s, hres, hh, ?_⟩
          have hid : tailLen stroke h
              ((1 - (s - u) / sqrtDist cand nxt) * cand.1 + (s - u) / sqrtDist cand nxt * nxt.1,
               (1 - (s - u) / sqrtDist cand nxt) * cand.2 + (s - u) / sqrtDist cand nxt * nxt.2) =
              (1 - (s - u) / sqrtDist cand nxt) * sqrtDist cand nxt +
                pathLen (stroke.drop (h + 1)) := by
            rw [tailLen_some stroke h nxt hm _,
              sqrtDist_interp cand nxt ((s - u) / sqrtDist cand nxt) hf1]
          rw [hid]
          have hcancel : (1 - (s - u) / sqrtDist cand nxt) * sqrtDist cand nxt =
              sqrtDist cand nxt - (s - u) := by
            field_simp
          rw [htail] at hinv
          rw [hcancel]
          linarith
    · refine ⟨h, cand, u, ?_, hh, hinv⟩
      rw [walk]
      simp [hsu]

lemma sampleLoop_spec (stroke : Strk ℝ) (nm1 : ℕ) :
    ∀ (cnt i h : ℕ) (cand : Pt ℝ) (u : ℝ), nm1 - i ≤ cnt → h < stroke.length →
      u + tailLen stroke h cand = pathLen stroke →
      ∃ out, sampleLoop stroke (pathLen stroke) nm1 i h cand u = some out ∧
        out.length = nm1 - i := by
  intro cnt
  induction cnt with
  | zero =>
    intro i h cand u hcnt hh hinv
    have hi : ¬ i < nm1 := by omega
    refine ⟨[], ?_, by simp; omega⟩
    rw [sampleLoop]
    simp [hi]
  | succ m ih =>
    intro i h cand u hcnt hh hinv
    by_cases hi : i < nm1
    · have hnm1 : (0 : ℝ) < (nm1 : ℝ) := by
        have : 0 < nm1 := by omega
        exact_mod_cast this
      have hs : (i : ℝ) * pathLen stroke / (nm1 : ℝ) ≤ pathLen stroke := by
        rw [div_le_iff hnm1]
        have hT := pathLen_nonneg stroke
        have hle : (i : ℝ) ≤ (nm1 : ℝ) := by exact_mod_cast hi.le
        nlinarith
      obtain ⟨h', cand', u', hw, hh', hinv'⟩ :=
        walk_spec stroke ((i : ℝ) * pathLen stroke / (nm1 : ℝ)) hs stroke.length h cand u
          (by omega) hh hinv
      obtain ⟨out, hout, hlen⟩ := ih (i + 1) h' cand' u' (by omega) hh' hinv'
      refine ⟨VectorFunctions.round cand' :: out, ?_, ?_⟩
      · rw [sampleLoop]
        simp only [dif_pos hi]
        rw [hw]
        simp [hout]
      · simp only [List.length_cons, hlen]
        omega
    · refine ⟨[], ?_, by simp; omega⟩
      rw [sampleLoop]
      simp [hi]

lemma process_stroke_spec (stroke : Strk ℝ) (n : ℕ) (hne : stroke ≠ []) :
    ∃ out, process_stroke stroke n = some out ∧ out.length = (n - 1) + 1 ∧
      out.getLast? = some (stroke.getLast hne) := by
  match stroke, hne with
  | p0 :: rest, hne =>
    have hinv : (0 : ℝ) + tailLen (p0 :: rest) 0 p0 = pathLen (p0 :: rest) := by
      rw [zero_add, tailLen_eq (p0 :: rest) 0 p0 (by simp)]
      simp
    obtain ⟨out, hout, hlen⟩ := sampleLoop_spec (p0 :: rest) (n - 1) (n - 1) 0 0 p0 0
      (by omega) (by simp) hinv
    refine ⟨out ++ [(p0 :: rest).getLast (List.cons_ne_nil p0 rest)], ?_, ?_, ?_⟩
    · show Option.map (fun pts => pts ++ [(p0 :: rest).getLast (List.cons_ne_nil p0 rest)])
        (sampleLoop (p0 :: rest) (pathLen (p0 :: rest)) (n - 1) 0 0 p0 0) = _
      rw [hout]
      rfl
    · simp [hlen]
    · exact List.getLast?_concat _

/-- C4: for every non-empty input stroke and every N at least 2, the resampler
succeeds (no implicit panic), returns exactly N points, and its last output
point is the input stroke's last point verbatim. -/
theorem claimC4 (stroke : Strk ℝ) (n : ℕ) (hne : stroke ≠ []) (hn : 2 ≤ n) :
    ∃ out, process_stroke stroke n = some out ∧ out.length = n ∧
      out.getLast? = some (stroke.getLast hne) := by
  obtain ⟨out, h1, h2, h3⟩ := process_stroke_spec stroke n hne
  exact ⟨out, h1, by omega, h3⟩

/-- Witness for C4 at a concrete one-point stroke and N = 2. -/
theorem claimC4_witness :
    ∃ out, process_stroke [((0 : ℝ), (0 : ℝ))] 2 = some out ∧ out.length = 2 ∧
      out.getLast? = some ([((0 : ℝ), (0 : ℝ))].getLast (by simp)) :=
  claimC4 [((0 : ℝ), (0 : ℝ))] 2 (by simp) (by norm_num)

lemma pathLen_const (p : Pt ℝ) : ∀ l : Strk ℝ, (∀ q ∈ l, q = p) → pathLen l = 0 := by
  intro l
  induction l with
  | nil => intro _; simp [pathLen]
  | cons q rest ih =>
    intro hconst
    cases rest with
    | nil => simp [pathLen]
    | cons q' t =>
      have ihv : pathLen (q' :: t) = 0 := ih (fun r hr => hconst r (List.mem_cons_of_mem q hr))
      rw [show pathLen (q :: q' :: t) = sqrtDist q q' + pathLen (q' :: t) by rw [pathLen],
        ihv, hconst q (by simp), hconst q' (by simp), sqrtDist_self, add_zero]

lemma sampleLoop_zero (stroke : Strk ℝ) (nm1 : ℕ) :
    ∀ (cnt i h : ℕ) (cand : Pt ℝ), nm1 - i ≤ cnt →
      sampleLoop stroke 0 nm1 i h cand 0 =
        some (List.replicate (nm1 - i) (VectorFunctions.round cand)) := by
  intro cnt
  induction cnt with
  | zero =>
    intro i h cand hcnt
    have hi : ¬ i < nm1 := by omega
    rw [sampleLoop]
    simp only [dif_neg hi]
    rw [show nm1 - i = 0 by omega]
    simp
  | succ m ih =>
    intro i h cand hcnt
    by_cases hi : i < nm1
    · have hwalk : walk stroke ((i : ℝ) * 0 / (nm1 : ℝ)) h cand 0 = some (h, cand, 0) := by
        rw [walk]
        have : ¬ (i : ℝ) * 0 / (nm1 : ℝ) > 0 := by norm_num
        simp [this]
      have hrep : List.replicate (nm1 - i) (VectorFunctions.round cand) =
          VectorFunctions.round cand ::
            List.replicate (nm1 - (i + 1)) (VectorFunctions.round cand) := by
        rw [show nm1 - i = (nm1 - (i + 1)) + 1 by omega, List.replicate_succ]
      rw [sampleLoop]
      simp only [dif_pos hi]
      rw [hwalk]
      simp [ih (i + 1) h cand (by omega), hrep]
    · rw [sampleLoop]
      simp only [dif_neg hi]
      rw [show nm1 - i = 0 by omega]
      simp

/-- C10: on a stroke whose points all coincide the total arc length is 0, the
walk's loop body is never entered (the guard `s > u` is 0 > 0), the resampler
terminates and returns the rounded first point N-1 times followed by the
stroke's original last point. -/
theorem claimC10 (stroke : Strk ℝ) (p : Pt ℝ) (n : ℕ) (hne : stroke ≠ [])
    (hconst : ∀ q ∈ stroke, q = p) (hn : 2 ≤ n) :
    process_stroke stroke n =
      some (List.replicate (n - 1) (VectorFunctions.round p) ++ [p]) := by
  match stroke, hne with
  | p0 :: rest, _ =>
    have hp0 : p0 = p := hconst p0 (by simp)
    have hlast : (p0 :: rest).getLast (List.cons_ne_nil p0 rest) = p :=
      hconst _ (List.getLast_mem _)
    have hlen0 : pathLen (p0 :: rest) = 0 := pathLen_const p _ hconst
    show Option.map (fun pts => pts ++ [(p0 :: rest).getLast (List.cons_ne_nil p0 rest)])
        (sampleLoop (p0 :: rest) (pathLen (p0 :: rest)) (n - 1) 0 0 p0 0) = _
    rw [hlen0, sampleLoop_zero (p0 :: rest) (n - 1) (n - 1) 0 0 p0 (by omega)]
    subst hp0
    simp [hlast]

/-- Witness for C10: a constant two-point stroke at (1/2, 1/2) with N = 3. -/
theorem claimC10_witness :
    process_stroke [((1 : ℝ) / 2, 1 / 2), ((1 : ℝ) / 2, 1 / 2)] 3 =
      some (List.replicate 2 (VectorFunctions.round ((1 : ℝ) / 2, 1 / 2)) ++
        [((1 : ℝ) / 2, 1 / 2)]) :=
  claimC10 [((1 : ℝ) / 2, 1 / 2), ((1 : ℝ) / 2, 1 / 2)] ((1 : ℝ) / 2, 1 / 2) 3 (by simp)
    (by intro q hq; simpa using hq) (by norm_num)

end ResamplerLemmas

section PreprocessLemmas

variable {K : Type*} [LinearOrderedField K] [FloorRing K]

lemma fpRound_mono {a b : K} (h : a ≤ b) : fpRound a ≤ fpRound b := by
  unfold fpRound
  by_cases ha : 0 ≤ a
  · rw [if_pos ha, if_pos (le_trans ha h)]
    exact Int.floor_le_floor (by linarith)
  · by_cases hb : 0 ≤ b
    · rw [if_neg ha, if_pos hb]
      have h1 : (0 : ℤ) ≤ ⌊b + 1 / 2⌋ := by
        rw [Int.le_floor]
        push_cast
        linarith
      have h2 : (0 : ℤ) ≤ ⌊-a + 1 / 2⌋ := by
        rw [Int.le_floor]
        push_cast
        linarith [not_le.mp ha]
      omega
    · rw [if_neg ha, if_neg hb]
      have : ⌊-b + 1 / 2⌋ ≤ ⌊-a + 1 / 2⌋ := Int.floor_le_floor (by linarith)
      omega

lemma getAabb_some (strokes : List (Strk K)) (hfl : strokes.flatten ≠ []) :
    ∃ box, getAabb strokes = some box ∧ box.1.1 ≤ box.2.1 ∧ box.1.2 ≤ box.2.2 := by
  cases hm : strokes.flatten with
  | nil => exact absurd hm hfl
  | cons p rest =>
    have hfold : ∀ (pts : List (Pt K)) (acc : Aabb K), acc.1.1 ≤ acc.2.1 → acc.1.2 ≤ acc.2.2 →
        (pts.foldl (fun acc q => ((min acc.1.1 q.1, min acc.1.2 q.2),
          (max acc.2.1 q.1, max acc.2.2 q.2))) acc).1.1 ≤
          (pts.foldl (fun acc q => ((min acc.1.1 q.1, min acc.1.2 q.2),
            (max acc.2.1 q.1, max acc.2.2 q.2))) acc).2.1 ∧
        (pts.foldl (fun acc q => ((min acc.1.1 q.1, min acc.1.2 q.2),
          (max acc.2.1 q.1, max acc.2.2 q.2))) acc).1.2 ≤
          (pts.foldl (fun acc q => ((min acc.1.1 q.1, min acc.1.2 q.2),
            (max acc.2.1 q.1, max acc.2.2 q.2))) acc).2.2 := by
      intro pts
      induction pts with
      | nil => intro acc hx hy; exact ⟨hx, hy⟩
      | cons q t ih =>
        intro acc hx hy
        simp only [List.foldl_cons]
        apply ih
        · exact le_trans (min_le_left _ _) (le_trans hx (le_max_left _ _))
        · exact le_trans (min_le_left _ _) (le_trans hy (le_max_left _ _))
    refine ⟨_, ?_, hfold rest (p, p) (le_refl _) (le_refl _)⟩
    unfold getAabb
    rw [hm]

lemma normalizeAabb_some (aabb : Aabb K) (mr mw : K)
    (h1 : aabb.1.1 ≤ aabb.2.1) (h2 : aabb.1.2 ≤ aabb.2.2) :
    normalizeAabb aabb mr mw = some (ratioPass (minWidthPass
      (VectorFunctions.round aabb.1, VectorFunctions.round aabb.2) mw) mr) := by
  have hx : (0 : K) ≤ (VectorFunctions.subtract (VectorFunctions.round aabb.2)
      (VectorFunctions.round aabb.1)).1 := by
    simp only [VectorFunctions.subtract, VectorFunctions.round, sub_nonneg]
    exact_mod_cast fpRound_mono h1
  have hy : (0 : K) ≤ (VectorFunctions.subtract (VectorFunctions.round aabb.2)
      (VectorFunctions.round aabb.1)).2 := by
    simp only [VectorFunctions.subtract, VectorFunctions.round, sub_nonneg]
    exact_mod_cast fpRound_mono h2
  simp only [normalizeAabb]
  rw [if_neg]
  push_neg
  exact ⟨hx, hy⟩

lemma mapM_option_spec {α β : Type*} (f : α → Option β) (P : β → Prop) :
    ∀ l : List α, (∀ a ∈ l, ∃ b, f a = some b ∧ P b) →
      ∃ res, l.mapM f = some res ∧ res.length = l.length ∧ ∀ b ∈ res, P b := by
  intro l
  induction l with
  | nil => intro _; exact ⟨[], rfl, by simp, by simp⟩
  | cons a t ih =>
    intro h
    obtain ⟨b, hb, hPb⟩ := h a (List.mem_cons_self a t)
    obtain ⟨res, hres, hlen, hP⟩ := ih (fun x hx => h x (List.mem_cons_of_mem a hx))
    refine ⟨b :: res, ?_, by simp [hlen], ?_⟩
    · rw [List.mapM_cons, hb, hres]
      rfl
    · intro c hc
      rcases List.mem_cons.mp hc with rfl | hc'
      · exact hPb
      · exact hP c hc'

lemma mapM_option_length {α β : Type*} (f : α → Option β) :
    ∀ (l : List α) (res : List β), l.mapM f = some res → res.length = l.length := by
  intro l
  induction l with
  | nil =>
    intro res h
    rw [List.mapM_nil] at h
    cases h
    rfl
  | cons a t ih =>
    intro res h
    rw [List.mapM_cons] at h
    cases hfa : f a with
    | none => rw [hfa] at h; simp at h
    | some b =>
      rw [hfa] at h
      cases hmt : t.mapM f with
      | none => rw [hmt] at h; simp at h
      | some bs =>
        rw [hmt] at h
        simp at h
        subst h
        simp [ih bs hmt]

lemma flatPairs_length : ∀ l : Strk ℝ, (l.flatMap fun p => [p.1, p.2]).length = 2 * l.length := by
  intro l
  induction l with
  | nil => simp
  | cons p t ih =>
    simp only [List.flatMap_cons, List.length_append, List.length_cons, ih]
    simp
    omega

lemma encodeStroke_some (project : Pt ℝ → Pt ℝ) (stroke : Strk ℝ) (hne : stroke ≠ []) :
    ∃ v, encodeStroke project stroke = some v ∧ v.length = 10 := by
  have hmapne : stroke.map project ≠ [] := by simpa using hne
  obtain ⟨out, hout, hlen, _⟩ := process_stroke_spec (stroke.map project) numEncodedPoints hmapne
  have hout4 : out.length = 4 := by rw [hlen]; norm_num [numEncodedPoints]
  refine ⟨_, by unfold encodeStroke; rw [hout]; rfl, ?_⟩
  simp only [List.length_append, flatPairs_length, hout4]
  norm_num

lemma preprocess_strokes_some (strokes : List (Strk ℝ)) (opts : MatcherOptions ℝ)
    (h1 : strokes ≠ []) (h2 : ∀ s ∈ strokes, s ≠ []) :
    ∃ sps, preprocess_strokes strokes opts = some sps ∧ sps.length = strokes.length ∧
      ∀ v ∈ sps, v.length = 10 := by
  have hcond : ¬ (strokes.isEmpty || strokes.any List.isEmpty) = true := by
    simp only [Bool.or_eq_true, List.isEmpty_iff, List.any_eq_true, not_or]
    refine ⟨h1, ?_⟩
    rintro ⟨s, hs, hse⟩
    exact h2 s hs hse
  have hflne : strokes.flatten ≠ [] := by
    rw [Ne, List.flatten_eq_nil_iff]
    push_neg
    obtain ⟨s0, hs0⟩ := List.exists_mem_of_ne_nil strokes h1
    exact ⟨s0, hs0, h2 s0 hs0⟩
  obtain ⟨box, hbox, hb1, hb2⟩ := getAabb_some strokes hflne
  have hnorm := normalizeAabb_some box opts.max_ratio opts.min_width hb1 hb2
  obtain ⟨res, hres, hlen, hP⟩ := mapM_option_spec
    (encodeStroke (createNormalizedProject (ratioPass (minWidthPass
      (VectorFunctions.round box.1, VectorFunctions.round box.2) opts.min_width)
      opts.max_ratio) (((0 : ℝ), 0), (255, 255))))
    (fun v => v.length = 10) strokes
    (fun s hs => encodeStroke_some _ s (h2 s hs))
  refine ⟨res, ?_, hlen, hP⟩
  unfold preprocess_strokes
  rw [if_neg hcond]
  simp only [hbox, hnorm]
  exact hres

lemma preprocess_strokes_length (strokes : List (Strk ℝ)) (opts : MatcherOptions ℝ)
    (sps : List (StrokeProcessed ℝ)) (h : preprocess_strokes strokes opts = some sps) :
    sps.length = strokes.length := by
  unfold preprocess_strokes at h
  by_cases hcond : (strokes.isEmpty || strokes.any List.isEmpty) = true
  · rw [if_pos hcond] at h; cases h
  · rw [if_neg hcond] at h
    split at h
    · cases h
    · split at h
      · cases h
      · exact mapM_option_length _ strokes sps h

end PreprocessLemmas

/-- C7: the feature encoder fails exactly when the stroke collection is empty
or contains an empty stroke; on every other input it succeeds (in particular
the invalid-bounding-box check never fires and every implicit resampler index
stays in bounds) and returns one 10-value feature vector per input stroke. -/
theorem claimC7 (strokes : List (Strk ℝ)) (opts : MatcherOptions ℝ) :
    (preprocess_strokes strokes opts = none ↔ strokes = [] ∨ ∃ s ∈ strokes, s = []) ∧
    (strokes ≠ [] → (∀ s ∈ strokes, s ≠ []) →
      ∃ sps, preprocess_strokes strokes opts = some sps ∧ sps.length = strokes.length ∧
        ∀ v ∈ sps, v.length = 10) := by
  constructor
  · constructor
    · intro hnone
      by_contra hcon
      push_neg at hcon
      obtain ⟨hne, hall⟩ := hcon
      obtain ⟨sps, hsps, _, _⟩ := preprocess_strokes_some strokes opts hne hall
      rw [hnone] at hsps
      cases hsps
    · intro hcase
      unfold preprocess_strokes
      rw [if_pos]
      rcases hcase with rfl | ⟨s, hs, rfl⟩
      · simp
      · simp only [Bool.or_eq_true, List.any_eq_true]
        exact Or.inr ⟨[], hs, rfl⟩
  · exact preprocess_strokes_some strokes opts

/-- Witness for C7: the encoder fails on an empty collection and succeeds on a
one-stroke, one-point input with a 10-value output vector. -/
theorem claimC7_witness :
    preprocess_strokes [] ⟨1, 8⟩ = none ∧
    (∃ sps, preprocess_strokes [[((0 : ℝ), 0)]] ⟨1, 8⟩ = some sps ∧ sps.length = 1 ∧
      ∀ v ∈ sps, v.length = 10) := by
  constructor
  · exact (claimC7 [] ⟨1, 8⟩).1.mpr (Or.inl rfl)
  · obtain ⟨sps, hs, hl, hv⟩ := (claimC7 [[((0 : ℝ), 0)]] ⟨1, 8⟩).2 (by simp) (by simp)
    exact ⟨sps, hs, by simpa using hl, hv⟩

/-- C2: every identifier returned by either match entry point belongs to a
database entry whose feature-vector count equals the query's stroke count;
entries with a different stroke count are never candidates; and a well-formed
query with no same-stroke-count entries yields an empty result, not an error. -/
theorem claimC2 {K : Type*} [LinearOrderedField K] [FloorRing K] :
    (∀ (m : Matcher K) (sp : List (StrokeProcessed K)) (k : ℕ),
      ∀ id ∈ match_preprocessed m sp k,
        ∃ e ∈ m.medians, e.1 = id ∧ e.2.length = sp.length) ∧
    (∀ (m : Matcher K) (sp : List (StrokeProcessed K)) (k : ℕ),
      (∀ e ∈ m.medians, e.2.length ≠ sp.length) → match_preprocessed m sp k = []) ∧
    (∀ (mr : Matcher ℝ) (strokes : List (Strk ℝ)) (k : ℕ) (ids : List Ideograph),
      match_strokes mr strokes k = some ids →
      ∀ id ∈ ids, ∃ e ∈ mr.medians, e.1 = id ∧ e.2.length = strokes.length) ∧
    (∀ (mr : Matcher ℝ) (strokes : List (Strk ℝ)) (k : ℕ), strokes ≠ [] →
      (∀ s ∈ strokes, s ≠ []) → (∀ e ∈ mr.medians, e.2.length ≠ strokes.length) →
      match_strokes mr strokes k = some []) := by
  refine ⟨?_, ?_, ?_, ?_⟩
  · intro m sp k id hid
    unfold match_preprocessed at hid
    split at hid
    · simp at hid
    · obtain ⟨e, he, heq, hlen⟩ := (matchScan_inv m sp k).2.2.2.1 id hid
      exact ⟨e, he, heq.symm, hlen⟩
  · intro m sp k hno
    unfold match_preprocessed
    split
    · rfl
    · unfold matchScan
      rw [foldl_matchStep_of_no_match k sp m.medians hno ([], [])]
  · intro mr strokes k ids hids id hid
    unfold match_strokes at hids
    split at hids
    · cases hids
      simp at hid
    · cases hpre : preprocess_strokes strokes mr.params with
      | none => rw [hpre] at hids; cases hids
      | some sp2 =>
        rw [hpre] at hids
        simp only [Option.map_some', Option.some_inj] at hids
        have hlen2 : sp2.length = strokes.length :=
          preprocess_strokes_length strokes mr.params sp2 hpre
        subst hids
        obtain ⟨e, he, heq, hlen⟩ := (matchScan_inv mr sp2 k).2.2.2.1 id hid
        exact ⟨e, he, heq.symm, hlen.trans hlen2⟩
  · intro mr strokes k hne hall hno
    obtain ⟨sp2, hsp2, hlen2, _⟩ := preprocess_strokes_some strokes mr.params hne hall
    unfold match_strokes
    rw [if_neg (by simpa using hne), hsp2]
    simp only [Option.map_some', Option.some_inj]
    unfold matchScan
    rw [foldl_matchStep_of_no_match k sp2 mr.medians (fun e he => hlen2 ▸ hno e he) ([], [])]

/-- Witness for C2: an empty-result query against a mismatching database and a
well-formed raw query against an empty database. -/
theorem claimC2_witness :
    match_preprocessed (⟨⟨1, 8⟩, [("a", [List.replicate 10 (0 : ℚ)])]⟩ : Matcher ℚ) [] 3 = [] ∧
    match_strokes (⟨⟨1, 8⟩, []⟩ : Matcher ℝ) [[((0 : ℝ), 0)]] 5 = some [] := by
  constructor
  · refine (claimC2 (K := ℚ)).2.1 _ _ _ ?_
    intro e he
    simp only [List.mem_singleton] at he
    subst he
    simp
  · exact (claimC2 (K := ℚ)).2.2.2 _ _ _ (by simp) (by simp) (by simp)
